import Mathlib

/-!
Verification of the segmenting block writer (`c7a/data/block_writer.hpp`).

The C++ class `BlockWriterBase<BlockSize>` is shallowly embedded: the
writer state (current block buffer, item counters, sink pointer, closed
flag) becomes a Lean structure, and each member function becomes a Lean
function returning `Option (Writer C × List SinkEvent)`.  `none` models a
fault (a failed `assert` or a dereference of a null pointer); the event
list records the calls the writer makes on its `BlockSink` in order.

The block buffer of capacity `C` is modelled as the list of bytes written
so far into it (`buf`), so the write cursor `current_ - block_->begin()`
is `buf.length` and `end_ - current_` is `C - buf.length`.  The valid
range `bytes[0..validLength)` handed to the sink by `FlushBlock` is
exactly `buf`.
-/

namespace BlockWriterModel

/-- Byte values; their range plays no role in the claims. -/
abbrev Byte := Nat

/-- One call made by the writer on its `BlockSink`: either
`AppendBlock(block, 0, validLength, first_offset, nitems)` (we record the
valid bytes, the first-item offset and the item count) or `Close()`. -/
inductive SinkEvent where
  | appendBlock (bytes : List Byte) (firstOffset : Nat) (nitems : Nat)
  | close
deriving DecidableEq, Repr

/-- State of `BlockWriterBase<C>`.  `hasSink` models `sink_ != nullptr`,
`hasBlock` models `block_ != nullptr`, `buf` is the written content of the
current block (cursor = `buf.length`), `nitems` is `nitems_`,
`firstOffset` is `first_offset_`, `closed` is `closed_`. -/
structure Writer (C : Nat) where
  hasSink : Bool
  hasBlock : Bool
  buf : List Byte
  nitems : Nat
  firstOffset : Nat
  closed : Bool
deriving DecidableEq, Repr

/-- The constructor `BlockWriterBase(sink)`: binds the sink and runs
`AllocateBlock()` on a fresh state. -/
def newWriter (C : Nat) (hasSink : Bool) : Writer C :=
  ⟨hasSink, true, [], 0, 0, false⟩

/-- `AllocateBlock()`: fresh block, cursor at begin, counters reset. -/
def allocateBlock {C : Nat} (w : Writer C) : Writer C :=
  { w with hasBlock := true, buf := [], nitems := 0, firstOffset := 0 }

/-- `FlushBlock()`: `sink_->AppendBlock(block_, 0, current_ - block_->begin(),
first_offset_, nitems_)`.  Dereferences both `sink_` and `block_`, hence
faults (`none`) when either is absent. -/
def flushBlock {C : Nat} (w : Writer C) : Option SinkEvent :=
  if w.hasSink && w.hasBlock then
    some (SinkEvent.appendBlock w.buf w.firstOffset w.nitems)
  else none

/-- `Flush()`: `FlushBlock(); AllocateBlock();` — unconditional. -/
def flushW {C : Nat} (w : Writer C) : Option (Writer C × List SinkEvent) :=
  match flushBlock w with
  | none => none
  | some ev => some (allocateBlock w, [ev])

/-- `MaybeFlushBlock()`: flush the block if it holds a byte or an item
start, then release it (`block_ = BlockPtr(); current_ = nullptr;`).
Reads `block_->begin()`, hence faults when no block is held. -/
def maybeFlushBlock {C : Nat} (w : Writer C) : Option (Writer C × List SinkEvent) :=
  if w.hasBlock = false then none
  else if w.buf.length ≠ 0 ∨ w.nitems ≠ 0 then
    match flushBlock w with
    | none => none
    | some ev => some ({ w with nitems := 0, hasBlock := false, buf := [] }, [ev])
  else some (w, [])

/-- `Close()`: on the first call set `closed_`, run `MaybeFlushBlock()`,
and call `sink_->Close()` if a sink is attached; otherwise do nothing. -/
def closeW {C : Nat} (w : Writer C) : Option (Writer C × List SinkEvent) :=
  if w.closed then some (w, [])
  else
    match maybeFlushBlock { w with closed := true } with
    | none => none
    | some (w1, evs) =>
      if w1.hasSink then some (w1, evs ++ [SinkEvent.close]) else some (w1, evs)

/-- The `if (nitems_ == 0) first_offset_ = current_ - block_->begin();
++nitems_;` tail of `MarkItem()`. -/
def markCore {C : Nat} (w : Writer C) : Writer C :=
  let w1 := if w.nitems = 0 then { w with firstOffset := w.buf.length } else w
  { w1 with nitems := w1.nitems + 1 }

/-- `MarkItem()`: if the cursor is at the block end, `Flush()` first; then
record the first-item offset on the 0 → 1 transition of `nitems_` and
increment `nitems_`.  Note: `MarkItem` performs no `closed_` check. -/
def markItem {C : Nat} (w : Writer C) : Option (Writer C × List SinkEvent) :=
  if w.hasBlock = false then none
  else if w.buf.length = C then
    match flushW w with
    | none => none
    | some (w1, evs) => some (markCore w1, evs)
  else some (markCore w, [])

/-- The copy loop of `Append(data, size)`: while `current_ + size > end_`,
copy the fitting head, `Flush()` (= `FlushBlock(); AllocateBlock();`),
and continue with the rest; finally copy the remainder.  The loop is
phrased with an explicit `fuel` bound so that it is structurally
recursive; `appendW` passes fuel exceeding the loop's variant
`size + cursor`, which suffices whenever `0 < C`, so the `fuel = 0`
fallthrough (`none`) models only the divergence of the C++ loop on a
zero-capacity block. -/
def appendRec {C : Nat} (fuel : Nat) (w : Writer C) (data : List Byte) :
    Option (Writer C × List SinkEvent) :=
  match fuel with
  | 0 => none
  | fuel + 1 =>
    if w.buf.length + data.length > C then
      match flushBlock ({ w with buf := w.buf ++ List.take (C - w.buf.length) data } : Writer C) with
      | none => none
      | some ev =>
        match appendRec fuel
            (allocateBlock ({ w with buf := w.buf ++ List.take (C - w.buf.length) data } : Writer C))
            (List.drop (C - w.buf.length) data) with
        | none => none
        | some (w3, evs2) => some (w3, ev :: evs2)
    else some ({ w with buf := w.buf ++ data }, [])

/-- `Append(data, size)`: `assert(!closed_);` then the copy loop.  Writing
through `current_` needs a live block. -/
def appendW {C : Nat} (w : Writer C) (data : List Byte) :
    Option (Writer C × List SinkEvent) :=
  if w.closed then none
  else if w.hasBlock = false then none
  else appendRec (data.length + w.buf.length + 1) w data

/-- `PutByte(b)`: `assert(!closed_);` then either a direct write
(`current_ < end_`) or `Flush()` followed by the write. -/
def putByte {C : Nat} (w : Writer C) (b : Byte) : Option (Writer C × List SinkEvent) :=
  if w.closed then none
  else if w.hasBlock = false then none
  else if w.buf.length < C then some ({ w with buf := w.buf ++ [b] }, [])
  else
    match flushBlock w with
    | none => none
    | some ev => some ({ allocateBlock w with buf := [b] }, [ev])

/-- `operator()(x)`: `assert(!closed_); MarkItem();` then the serializer
emits the item's bytes through `Append` (self-verification off, as its
fingerprint bytes would simply be part of the serialized bytes). -/
def writeItem {C : Nat} (w : Writer C) (bytes : List Byte) :
    Option (Writer C × List SinkEvent) :=
  if w.closed then none
  else
    match markItem w with
    | none => none
    | some (w1, evs1) =>
      match appendW w1 bytes with
      | none => none
      | some (w2, evs2) => some (w2, evs1 ++ evs2)

/-- Write a list of items in order, each via `operator()`. -/
def runItems {C : Nat} (w : Writer C) :
    List (List Byte) → Option (Writer C × List SinkEvent)
  | [] => some (w, [])
  | it :: rest =>
    match writeItem w it with
    | none => none
    | some (w1, evs1) =>
      match runItems w1 rest with
      | none => none
      | some (w2, evs2) => some (w2, evs1 ++ evs2)

/-- The full scenario of the spec: construct a writer on a sink, write the
items, `Close()`. -/
def writeAndClose (C : Nat) (items : List (List Byte)) :
    Option (Writer C × List SinkEvent) :=
  match runItems (newWriter C true) items with
  | none => none
  | some (w, evs1) =>
    match closeW w with
    | none => none
    | some (w2, evs2) => some (w2, evs1 ++ evs2)

/-- One generic operation on the writer, for arbitrary call sequences. -/
inductive Op where
  | markItem
  | append (data : List Byte)
  | putByte (b : Byte)
  | flush
  | close
deriving DecidableEq, Repr

/-- Dispatch one operation. -/
def runOp {C : Nat} (w : Writer C) : Op → Option (Writer C × List SinkEvent)
  | Op.markItem => markItem w
  | Op.append data => appendW w data
  | Op.putByte b => putByte w b
  | Op.flush => flushW w
  | Op.close => closeW w

/-- Run a sequence of operations, concatenating the sink call traces. -/
def runOps {C : Nat} (w : Writer C) :
    List Op → Option (Writer C × List SinkEvent)
  | [] => some (w, [])
  | op :: rest =>
    match runOp w op with
    | none => none
    | some (w1, evs1) =>
      match runOps w1 rest with
      | none => none
      | some (w2, evs2) => some (w2, evs1 ++ evs2)

/-! ### Observations on the sink trace -/

/-- Concatenation of the valid byte ranges of all blocks handed to the
sink, in emission order. -/
def evBytes : List SinkEvent → List Byte
  | [] => []
  | SinkEvent.appendBlock bs _ _ :: rest => bs ++ evBytes rest
  | SinkEvent.close :: rest => evBytes rest

/-- Number of `AppendBlock` calls in a trace. -/
def countAppends : List SinkEvent → Nat
  | [] => 0
  | SinkEvent.appendBlock _ _ _ :: rest => countAppends rest + 1
  | SinkEvent.close :: rest => countAppends rest

/-- Global stream offsets at which the items start: item `i` starts at the
total length of items `0..i-1`. -/
def itemStarts : List (List Byte) → Nat → List Nat
  | [], _ => []
  | it :: rest, n => n :: itemStarts rest (n + it.length)

/-- Metadata correctness of one sealed block whose valid range covers the
global byte interval `[off, off + bs.length)`: its `nitems` is the number
of item starts falling in that interval, and when there is such a start,
`off + firstOffset` is the earliest of them. -/
def blockMetaOk (starts : List Nat) (off : Nat) (bs : List Byte) (fo ni : Nat) : Bool :=
  let f := starts.filter (fun p => decide (off ≤ p ∧ p < off + bs.length))
  decide (ni = f.length) &&
    (f.isEmpty || (decide ((off + fo) ∈ f) && decide (∀ q ∈ f, off + fo ≤ q)))

/-- Metadata correctness of a whole trace: blocks cover consecutive global
byte intervals, each one satisfying `blockMetaOk`. -/
def eventsMetaOk (starts : List Nat) : Nat → List SinkEvent → Bool
  | _, [] => true
  | off, SinkEvent.close :: rest => eventsMetaOk starts off rest
  | off, SinkEvent.appendBlock bs fo ni :: rest =>
    blockMetaOk starts off bs fo ni && eventsMetaOk starts (off + bs.length) rest

/-! ### Basic trace lemmas -/

theorem evBytes_append (a b : List SinkEvent) :
    evBytes (a ++ b) = evBytes a ++ evBytes b := by
  induction a with
  | nil => rfl
  | cons e rest ih => cases e <;> simp [evBytes, ih]

theorem countAppends_append (a b : List SinkEvent) :
    countAppends (a ++ b) = countAppends a + countAppends b := by
  induction a with
  | nil => simp [countAppends]
  | cons e rest ih => cases e <;> simp [countAppends, ih] <;> omega

theorem evBytes_length_of_full {C : Nat} (evs : List SinkEvent)
    (h : ∀ e ∈ evs, ∃ bs fo ni, e = SinkEvent.appendBlock bs fo ni ∧ bs.length = C) :
    (evBytes evs).length = C * evs.length := by
  induction evs with
  | nil => simp [evBytes]
  | cons e rest ih =>
    obtain ⟨bs, fo, ni, rfl, hlen⟩ := h e (by simp)
    have := ih (fun e he => h e (by simp [he]))
    simp [evBytes, this, hlen, Nat.mul_succ]
    omega

/-! ### Specification of the `Append` copy loop -/

/-- Everything the copy loop of `Append` guarantees, for a writer holding
a sink and a block with at most `C` written bytes: it succeeds, seals only
completely full blocks, emits the current block (with its pending
metadata) first and metadata-less continuation blocks afterwards, and
splits the byte stream with no loss or duplication. -/
structure AppendOut {C : Nat} (w w' : Writer C) (data : List Byte)
    (evs : List SinkEvent) : Prop where
  hsink : w'.hasSink = true
  hblock : w'.hasBlock = true
  hclosed : w'.closed = w.closed
  hlen : w'.buf.length ≤ C
  hbytes : evBytes evs ++ w'.buf = w.buf ++ data
  hcount : w.buf.length + data.length = C * evs.length + w'.buf.length
  hfull : ∀ e ∈ evs, ∃ bs fo ni, e = SinkEvent.appendBlock bs fo ni ∧ bs.length = C
  hnil : evs = [] → w' = { w with buf := w.buf ++ data }
  hcons : ∀ ev rest, evs = ev :: rest →
    ev = SinkEvent.appendBlock (w.buf ++ List.take (C - w.buf.length) data)
          w.firstOffset w.nitems ∧
    (∀ e ∈ rest, ∃ bs, e = SinkEvent.appendBlock bs 0 0) ∧
    w'.nitems = 0 ∧ w'.firstOffset = 0 ∧ 1 ≤ w'.buf.length

theorem appendRec_spec {C : Nat} (hC : 0 < C) :
    ∀ (fuel : Nat) (w : Writer C) (data : List Byte),
      data.length + w.buf.length < fuel →
      w.hasSink = true → w.hasBlock = true → w.buf.length ≤ C →
      ∃ w' evs, appendRec fuel w data = some (w', evs) ∧ AppendOut w w' data evs := by
  intro fuel
  induction fuel with
  | zero => intro w data hn; omega
  | succ n ih =>
    intro w data hn hs hb hbl
    rw [appendRec]
    by_cases hcond : w.buf.length + data.length > C
    · rw [if_pos hcond]
      have hfb : flushBlock ({ w with buf := w.buf ++ List.take (C - w.buf.length) data } : Writer C)
          = some (SinkEvent.appendBlock (w.buf ++ List.take (C - w.buf.length) data)
              w.firstOffset w.nitems) := by
        simp [flushBlock, hs, hb]
      rw [hfb]
      obtain ⟨w2, evs2, hrec, out2⟩ :=
        ih (allocateBlock ({ w with buf := w.buf ++ List.take (C - w.buf.length) data } : Writer C))
          (List.drop (C - w.buf.length) data)
          (by simp only [allocateBlock, List.length_drop, List.length_nil]; omega)
          (by simp [allocateBlock, hs]) (by simp [allocateBlock])
          (by simp [allocateBlock])
      rw [hrec]
      refine ⟨w2, _ :: evs2, rfl, ?_⟩
      have hfirstlen : (w.buf ++ List.take (C - w.buf.length) data).length = C := by
        simp [List.length_take]
        omega
      refine { hsink := out2.hsink, hblock := out2.hblock, hlen := out2.hlen,
               hclosed := ?_, hbytes := ?_, hcount := ?_, hfull := ?_,
               hnil := ?_, hcons := ?_ }
      · rw [out2.hclosed]; simp [allocateBlock]
      · have h2 := out2.hbytes
        simp only [allocateBlock, List.nil_append] at h2
        simp only [evBytes, List.append_assoc, h2]
        rw [List.take_append_drop]
      · have h2 := out2.hcount
        simp only [allocateBlock, List.length_nil, List.length_drop, Nat.zero_add] at h2
        simp only [List.length_cons, Nat.mul_succ]
        omega
      · intro e he
        rcases List.mem_cons.mp he with rfl | hmem
        · exact ⟨_, _, _, rfl, hfirstlen⟩
        · exact out2.hfull e hmem
      · intro habs; exact absurd habs (List.cons_ne_nil _ _)
      · intro ev rest heq
        injection heq with h1 h2
        subst h1
        subst h2
        refine ⟨rfl, ?_, ?_⟩
        · intro e he
          cases hevs2 : evs2 with
          | nil => rw [hevs2] at he; cases he
          | cons e2 rest2 =>
            obtain ⟨hfirst2, hrest2, -, -, -⟩ := out2.hcons e2 rest2 hevs2
            simp only [allocateBlock] at hfirst2
            rw [hevs2] at he
            rcases List.mem_cons.mp he with rfl | hmem2
            · exact ⟨_, hfirst2⟩
            · exact hrest2 e hmem2
        · cases hevs2 : evs2 with
          | nil =>
            have hw2 := out2.hnil hevs2
            rw [hw2]
            refine ⟨rfl, rfl, ?_⟩
            simp only [allocateBlock, List.nil_append, List.length_drop]
            omega
          | cons e2 rest2 =>
            obtain ⟨-, -, h1, h2, h3⟩ := out2.hcons e2 rest2 hevs2
            exact ⟨h1, h2, h3⟩
    · rw [if_neg hcond]
      refine ⟨{ w with buf := w.buf ++ data }, [], rfl, ?_⟩
      refine { hsink := hs, hblock := hb, hclosed := rfl, hlen := ?_, hbytes := rfl,
               hcount := ?_, hfull := ?_, hnil := fun _ => rfl, hcons := ?_ }
      · simp only [List.length_append]; omega
      · simp only [List.length_append, List.length_nil]; omega
      · intro e he; cases he
      · intro ev rest heq; cases heq

/-! ### C9: `PutByte` is the size-1 case of `Append` -/

/-- C9 (confirmed): for every writer state and every byte `b`, `PutByte(b)`
is behaviorally equivalent to `Append(&b, 1)`: identical resulting writer
state and identical sink call sequence, including the flush-and-retry case
where the current block is exactly full (and identical faulting behavior
after close or without a block). -/
theorem c9_putbyte_equiv_append {C : Nat} (hC : 0 < C) (w : Writer C) (b : Byte) :
    putByte w b = appendW w [b] := by
  obtain ⟨hsk, hbk, buf, ni, fo, cl⟩ := w
  cases cl
  case true => rfl
  case false =>
  cases hbk
  case false => rfl
  case true =>
  by_cases hlt : buf.length < C
  · have h2 : ¬(buf.length + 1 > C) := by omega
    simp [putByte, appendW, appendRec, hlt, h2]
  · have h2 : buf.length + 1 > C := by omega
    have hpart : C - buf.length = 0 := by omega
    cases hfb : flushBlock (⟨hsk, true, buf, ni, fo, false⟩ : Writer C) with
    | none =>
      simp [putByte, appendW, appendRec, hlt, h2, hpart, hfb]
    | some ev =>
      have h3 : ¬((0 : Nat) + 1 > C) := by omega
      simp only [putByte, appendW, appendRec, hlt, h2, hpart, hfb, allocateBlock, h3]
      simp [putByte, appendW, hlt, h2, hpart, hfb, allocateBlock]
      rw [Nat.add_comm 1 buf.length]
      rw [appendRec]
      simp [h3]

/-- C9 witness: the equivalence evaluated at a concrete exactly-full
writer, where the flush-and-retry path fires. -/
theorem c9_putbyte_equiv_append_witness :
    putByte (⟨true, true, [1, 2, 3, 4], 2, 1, false⟩ : Writer 4) 9
      = appendW (⟨true, true, [1, 2, 3, 4], 2, 1, false⟩ : Writer 4) [9] :=
  c9_putbyte_equiv_append (Nat.succ_pos 3) ⟨true, true, [1, 2, 3, 4], 2, 1, false⟩ 9

/-! ### C4: `Flush` on an empty writer -/

/-- C4 counterexample: `Flush()` on a freshly constructed writer (no byte
written, no item marked) performs one `AppendBlock` call on the sink — not
zero as the claim states — carrying an empty valid range. -/
theorem c4_counterexample_empty_flush :
    flushW (newWriter 4 true) = some (newWriter 4 true, [SinkEvent.appendBlock [] 0 0]) ∧
    countAppends [SinkEvent.appendBlock [] 0 0] ≠ 0 :=
  ⟨rfl, by decide⟩

/-- C4 amended: `Flush()` on an empty writer makes exactly one
`AppendBlock` call, whose valid range is empty (`validLength = 0`,
`itemCount = 0`), and the writer then holds one fresh empty block. -/
theorem c4_empty_flush_amended (C : Nat) :
    flushW (newWriter C true) = some (newWriter C true, [SinkEvent.appendBlock [] 0 0]) := rfl

/-! ### C6: absent sink -/

/-- C6 counterexample: with an absent sink, `Flush()` on the fresh writer
faults (null `sink_` dereference in `FlushBlock`, modelled `none`) instead
of completing as a no-op; likewise `Close()` when the block holds a byte —
and such a state is reachable, since `PutByte` itself needs no sink. -/
theorem c6_counterexample_null_sink :
    flushW (newWriter 4 false) = none ∧
    putByte (newWriter 4 false) 7
      = some ((⟨false, true, [7], 0, 0, false⟩ : Writer 4), []) ∧
    closeW (⟨false, true, [7], 0, 0, false⟩ : Writer 4) = none := by
  refine ⟨rfl, rfl, ?_⟩
  decide

/-- C6 amended: with an absent sink the writer can buffer, and `Close()`
completes without any sink interaction when the current block is empty
(no byte, no item start); but `Flush()`, and `Close()` with a pending byte
or item start, dereference the absent sink and fault. -/
theorem c6_null_sink_amended {C : Nat} (w : Writer C) (hs : w.hasSink = false)
    (hb : w.hasBlock = true) :
    flushW w = none ∧
    (w.closed = false → w.buf = [] → w.nitems = 0 →
      closeW w = some ({ w with closed := true }, [])) ∧
    (w.closed = false → (w.buf ≠ [] ∨ w.nitems ≠ 0) → closeW w = none) := by
  obtain ⟨hsk, hbk, buf, ni, fo, cl⟩ := w
  replace hs : hsk = false := hs
  replace hb : hbk = true := hb
  subst hs
  subst hb
  refine ⟨by simp [flushW, flushBlock], ?_, ?_⟩
  · intro hcl hbuf hni
    replace hcl : cl = false := hcl
    replace hbuf : buf = [] := hbuf
    replace hni : ni = 0 := hni
    subst hcl
    subst hbuf
    subst hni
    simp [closeW, maybeFlushBlock]
  · intro hcl hpend
    replace hcl : cl = false := hcl
    subst hcl
    rcases hpend with h | h
    · replace h : buf ≠ [] := h
      simp [closeW, maybeFlushBlock, flushBlock, h]
    · replace h : ni ≠ 0 := h
      simp [closeW, maybeFlushBlock, flushBlock, h]

/-- C6 amended witness, at the fresh sink-less writer of capacity 4. -/
theorem c6_null_sink_amended_witness :
    flushW (newWriter 4 false) = none ∧
    ((newWriter 4 false).closed = false → (newWriter 4 false).buf = [] →
      (newWriter 4 false).nitems = 0 →
      closeW (newWriter 4 false) = some ({ newWriter 4 false with closed := true }, [])) ∧
    ((newWriter 4 false).closed = false →
      ((newWriter 4 false).buf ≠ [] ∨ (newWriter 4 false).nitems ≠ 0) →
      closeW (newWriter 4 false) = none) :=
  c6_null_sink_amended (newWriter 4 false) rfl rfl

/-! ### C7: `Close` idempotence -/

/-- C7 (confirmed): on an open writer holding a sink and a block, the
first `Close()` seals the current block if and only if it holds a written
byte or an item start, then calls the sink's `Close()` exactly once; a
second `Close()` makes no sink call and leaves the state unchanged. -/
theorem c7_close_idempotent {C : Nat} (w : Writer C) (hs : w.hasSink = true)
    (hb : w.hasBlock = true) (hcl : w.closed = false) :
    ∃ w1, closeW w = some (w1,
        (if w.buf.length ≠ 0 ∨ w.nitems ≠ 0
          then [SinkEvent.appendBlock w.buf w.firstOffset w.nitems] else [])
        ++ [SinkEvent.close]) ∧
      closeW w1 = some (w1, []) ∧ w1.closed = true := by
  obtain ⟨hsk, hbk, buf, ni, fo, cl⟩ := w
  replace hs : hsk = true := hs
  replace hb : hbk = true := hb
  replace hcl : cl = false := hcl
  subst hs
  subst hb
  subst hcl
  by_cases h1 : buf = [] <;> by_cases h2 : ni = 0
  · subst h1
    subst h2
    exact ⟨⟨true, true, [], 0, fo, true⟩, by simp [closeW, maybeFlushBlock],
      by simp [closeW], rfl⟩
  · subst h1
    exact ⟨⟨true, false, [], 0, fo, true⟩,
      by simp [closeW, maybeFlushBlock, flushBlock, h2], by simp [closeW], rfl⟩
  · subst h2
    exact ⟨⟨true, false, [], 0, fo, true⟩,
      by simp [closeW, maybeFlushBlock, flushBlock, h1], by simp [closeW], rfl⟩
  · exact ⟨⟨true, false, [], 0, fo, true⟩,
      by simp [closeW, maybeFlushBlock, flushBlock, h1, h2], by simp [closeW], rfl⟩

/-- C7 witness: a writer with two pending bytes and one pending item
start; the first close seals once and closes once, the second is inert. -/
theorem c7_close_idempotent_witness :
    ∃ w1, closeW (⟨true, true, [5, 6], 1, 0, false⟩ : Writer 4) = some (w1,
        (if ([5, 6] : List Byte).length ≠ 0 ∨ (1 : Nat) ≠ 0
          then [SinkEvent.appendBlock [5, 6] 0 1] else [])
        ++ [SinkEvent.close]) ∧
      closeW w1 = some (w1, []) ∧ w1.closed = true :=
  c7_close_idempotent ⟨true, true, [5, 6], 1, 0, false⟩ rfl rfl rfl

/-! ### C8: writes after close -/

/-- C8 counterexample: `MarkItem()` performs no `closed_` check.  After
`Close()` on a fresh writer (whose empty block is retained), `MarkItem`
silently succeeds and bumps the item counter instead of failing an
assertion at the point of violation. -/
theorem c8_counterexample_markitem_unchecked :
    closeW (newWriter 4 true)
      = some ((⟨true, true, [], 0, 0, true⟩ : Writer 4), [SinkEvent.close]) ∧
    markItem (⟨true, true, [], 0, 0, true⟩ : Writer 4)
      = some ((⟨true, true, [], 1, 0, true⟩ : Writer 4), []) := by
  constructor
  · decide
  · decide

/-- C8 amended: `operator()` (the generic item entry point), `Append` and
`PutByte` after close all fail the `assert(!closed_)` at the call;
`MarkItem` alone has no such check and silently updates the item
counters (it is guarded only when reached through `operator()`). -/
theorem c8_write_after_close_amended {C : Nat} (w : Writer C)
    (hcl : w.closed = true) :
    (∀ data, appendW w data = none) ∧
    (∀ b, putByte w b = none) ∧
    (∀ bytes, writeItem w bytes = none) ∧
    (w.hasBlock = true → w.buf.length < C →
      markItem w = some (markCore w, []) ∧ (markCore w).nitems = w.nitems + 1) := by
  refine ⟨fun data => by simp [appendW, hcl], fun b => by simp [putByte, hcl],
    fun bytes => by simp [writeItem, hcl], fun hb hlt => ⟨?_, ?_⟩⟩
  · simp [markItem, hb, Nat.ne_of_lt hlt]
  · by_cases hni : w.nitems = 0 <;> simp [markCore, hni]

/-- C8 amended witness, at the closed state left by closing a fresh
writer of capacity 4. -/
theorem c8_write_after_close_amended_witness :
    (∀ data, appendW (⟨true, true, [], 0, 0, true⟩ : Writer 4) data = none) ∧
    (∀ b, putByte (⟨true, true, [], 0, 0, true⟩ : Writer 4) b = none) ∧
    (∀ bytes, writeItem (⟨true, true, [], 0, 0, true⟩ : Writer 4) bytes = none) ∧
    ((⟨true, true, [], 0, 0, true⟩ : Writer 4).hasBlock = true →
      (⟨true, true, [], 0, 0, true⟩ : Writer 4).buf.length < 4 →
      markItem (⟨true, true, [], 0, 0, true⟩ : Writer 4)
        = some (markCore (⟨true, true, [], 0, 0, true⟩ : Writer 4), []) ∧
      (markCore (⟨true, true, [], 0, 0, true⟩ : Writer 4)).nitems = 0 + 1) :=
  c8_write_after_close_amended _ rfl

/-! ### Small field lemmas and per-operation specifications -/

theorem fourPos : 0 < 4 := by decide

theorem sixteenPos : 0 < 16 := by decide

@[simp] theorem markCore_hasSink {C : Nat} (w : Writer C) :
    (markCore w).hasSink = w.hasSink := by
  by_cases h : w.nitems = 0 <;> simp [markCore, h]

@[simp] theorem markCore_hasBlock {C : Nat} (w : Writer C) :
    (markCore w).hasBlock = w.hasBlock := by
  by_cases h : w.nitems = 0 <;> simp [markCore, h]

@[simp] theorem markCore_buf {C : Nat} (w : Writer C) :
    (markCore w).buf = w.buf := by
  by_cases h : w.nitems = 0 <;> simp [markCore, h]

@[simp] theorem markCore_closed {C : Nat} (w : Writer C) :
    (markCore w).closed = w.closed := by
  by_cases h : w.nitems = 0 <;> simp [markCore, h]

@[simp] theorem markCore_nitems {C : Nat} (w : Writer C) :
    (markCore w).nitems = w.nitems + 1 := by
  by_cases h : w.nitems = 0 <;> simp [markCore, h]

theorem markCore_firstOffset {C : Nat} (w : Writer C) :
    (markCore w).firstOffset = if w.nitems = 0 then w.buf.length else w.firstOffset := by
  by_cases h : w.nitems = 0 <;> simp [markCore, h]

@[simp] theorem allocateBlock_hasSink {C : Nat} (w : Writer C) :
    (allocateBlock w).hasSink = w.hasSink := rfl

@[simp] theorem allocateBlock_hasBlock {C : Nat} (w : Writer C) :
    (allocateBlock w).hasBlock = true := rfl

@[simp] theorem allocateBlock_buf {C : Nat} (w : Writer C) :
    (allocateBlock w).buf = [] := rfl

@[simp] theorem allocateBlock_closed {C : Nat} (w : Writer C) :
    (allocateBlock w).closed = w.closed := rfl

@[simp] theorem allocateBlock_nitems {C : Nat} (w : Writer C) :
    (allocateBlock w).nitems = 0 := rfl

@[simp] theorem allocateBlock_firstOffset {C : Nat} (w : Writer C) :
    (allocateBlock w).firstOffset = 0 := rfl

theorem flushW_spec {C : Nat} (w : Writer C) (hs : w.hasSink = true) (hb : w.hasBlock = true) :
    flushW w = some (allocateBlock w, [SinkEvent.appendBlock w.buf w.firstOffset w.nitems]) := by
  simp [flushW, flushBlock, hs, hb]

theorem markItem_full_spec {C : Nat} (w : Writer C) (hs : w.hasSink = true)
    (hb : w.hasBlock = true) (hfull : w.buf.length = C) :
    markItem w = some (markCore (allocateBlock w),
      [SinkEvent.appendBlock w.buf w.firstOffset w.nitems]) := by
  rw [markItem, if_neg (by simp [hb]), if_pos hfull, flushW_spec w hs hb]

theorem markItem_open_spec {C : Nat} (w : Writer C) (hb : w.hasBlock = true)
    (hroom : w.buf.length ≠ C) :
    markItem w = some (markCore w, []) := by
  rw [markItem, if_neg (by simp [hb]), if_neg hroom]

theorem putByte_room_spec {C : Nat} (w : Writer C) (b : Byte) (hcl : w.closed = false)
    (hb : w.hasBlock = true) (hroom : w.buf.length < C) :
    putByte w b = some ({ w with buf := w.buf ++ [b] }, []) := by
  rw [putByte, if_neg (by simp [hcl]), if_neg (by simp [hb]), if_pos hroom]

theorem putByte_full_spec {C : Nat} (w : Writer C) (b : Byte) (hcl : w.closed = false)
    (hs : w.hasSink = true) (hb : w.hasBlock = true) (hfull : ¬ w.buf.length < C) :
    putByte w b = some (({ allocateBlock w with buf := [b] } : Writer C),
      [SinkEvent.appendBlock w.buf w.firstOffset w.nitems]) := by
  rw [putByte, if_neg (by simp [hcl]), if_neg (by simp [hb]), if_neg hfull]
  simp [flushBlock, hs, hb]

theorem appendW_spec {C : Nat} (hC : 0 < C) (w : Writer C) (data : List Byte)
    (hcl : w.closed = false) (hs : w.hasSink = true) (hb : w.hasBlock = true)
    (hbl : w.buf.length ≤ C) :
    ∃ w' evs, appendW w data = some (w', evs) ∧ AppendOut w w' data evs := by
  rw [appendW, if_neg (by simp [hcl]), if_neg (by simp [hb])]
  exact appendRec_spec hC (data.length + w.buf.length + 1) w data (by omega) hs hb hbl

theorem closeW_seal_spec {C : Nat} (w : Writer C) (hs : w.hasSink = true)
    (hb : w.hasBlock = true) (hcl : w.closed = false)
    (hpend : ¬(w.buf = [] ∧ w.nitems = 0)) :
    closeW w = some (({ w with closed := true, nitems := 0, hasBlock := false, buf := [] } :
        Writer C),
      [SinkEvent.appendBlock w.buf w.firstOffset w.nitems, SinkEvent.close]) := by
  obtain ⟨hsk, hbk, buf, ni, fo, cl⟩ := w
  replace hs : hsk = true := hs
  replace hb : hbk = true := hb
  replace hcl : cl = false := hcl
  subst hs
  subst hb
  subst hcl
  by_cases h1 : buf = [] <;> by_cases h2 : ni = 0
  · exact absurd ⟨h1, h2⟩ hpend
  · subst h1
    simp [closeW, maybeFlushBlock, flushBlock, h2]
  · subst h2
    simp [closeW, maybeFlushBlock, flushBlock, h1]
  · simp [closeW, maybeFlushBlock, flushBlock, h1, h2]

theorem closeW_empty_spec {C : Nat} (w : Writer C) (hb : w.hasBlock = true)
    (hcl : w.closed = false) (hbuf : w.buf = []) (hni : w.nitems = 0) :
    closeW w = some (({ w with closed := true } : Writer C),
      if w.hasSink = true then [SinkEvent.close] else []) := by
  obtain ⟨hsk, hbk, buf, ni, fo, cl⟩ := w
  replace hb : hbk = true := hb
  replace hcl : cl = false := hcl
  replace hbuf : buf = [] := hbuf
  replace hni : ni = 0 := hni
  subst hb
  subst hcl
  subst hbuf
  subst hni
  cases hsk <;> simp [closeW, maybeFlushBlock]

theorem closeW_closed_spec {C : Nat} (w : Writer C) (hcl : w.closed = true) :
    closeW w = some (w, []) := by
  simp [closeW, hcl]

/-! ### The writer invariant over arbitrary operation sequences -/

/-- Invariant of every reachable writer state: a sink is attached, an open
writer holds a block, the cursor never passes the block end, and the
pending `first_offset_` is 0 whenever no item has been marked in the
current block. -/
def WInv {C : Nat} (w : Writer C) : Prop :=
  w.hasSink = true ∧ (w.closed = false → w.hasBlock = true) ∧
  (w.hasBlock = true → w.buf.length ≤ C) ∧
  (w.hasBlock = true → w.nitems = 0 → w.firstOffset = 0)

/-- A sealed block whose `itemCount` is 0 carries `firstItemOffset` 0. -/
def eventZeroOk : SinkEvent → Prop
  | SinkEvent.appendBlock _ fo ni => ni = 0 → fo = 0
  | SinkEvent.close => True

theorem runOp_inv {C : Nat} (hC : 0 < C) (w : Writer C) (op : Op)
    (w1 : Writer C) (evs1 : List SinkEvent) (hw : WInv w)
    (h : runOp w op = some (w1, evs1)) :
    WInv w1 ∧ ∀ e ∈ evs1, eventZeroOk e := by
  obtain ⟨hs, hcb, hbl, hfo⟩ := hw
  cases op with
  | markItem =>
    rw [runOp] at h
    by_cases hbk : w.hasBlock = true
    · by_cases hfull : w.buf.length = C
      · rw [markItem_full_spec w hs hbk hfull] at h
        injection h with h
        injection h with h1 h2
        subst h1
        subst h2
        refine ⟨⟨by simp [hs], fun _ => by simp, fun _ => by simp [hC], fun _ hni => ?_⟩, ?_⟩
        · rw [markCore_nitems] at hni
          omega
        · intro e he
          rcases List.mem_singleton.mp he with rfl
          exact fun hni => hfo hbk hni
      · rw [markItem_open_spec w hbk hfull] at h
        injection h with h
        injection h with h1 h2
        subst h1
        subst h2
        refine ⟨⟨by simp [hs], fun _ => by simp [hbk], fun _ => by simp [hbl hbk],
          fun _ hni => ?_⟩, by simp⟩
        rw [markCore_nitems] at hni
        omega
    · rw [markItem, if_pos (by simpa using hbk)] at h
      cases h
  | append data =>
    rw [runOp] at h
    by_cases hcl : w.closed = false
    · obtain ⟨w', evs, heq, out⟩ := appendW_spec hC w data hcl hs (hcb hcl) (hbl (hcb hcl))
      rw [heq] at h
      injection h with h
      injection h with h1 h2
      subst h1
      subst h2
      refine ⟨⟨out.hsink, fun _ => out.hblock, fun _ => out.hlen, fun _ hni => ?_⟩, ?_⟩
      · cases hevs : evs with
        | nil =>
          have := out.hnil hevs
          rw [this] at hni ⊢
          exact hfo (hcb hcl) hni
        | cons e rest =>
          obtain ⟨-, -, -, hfo0, -⟩ := out.hcons e rest hevs
          exact hfo0
      · intro e he
        cases hevs : evs with
        | nil => rw [hevs] at he; cases he
        | cons e0 rest =>
          obtain ⟨he0, hrest, -, -, -⟩ := out.hcons e0 rest hevs
          rw [hevs] at he
          rcases List.mem_cons.mp he with rfl | hmem
          · rw [he0]
            exact fun hni => hfo (hcb hcl) hni
          · obtain ⟨bs, hbs⟩ := hrest e hmem
            rw [hbs]
            exact fun _ => rfl
    · rw [appendW, if_pos (by simpa using hcl)] at h
      cases h
  | putByte b =>
    rw [runOp] at h
    by_cases hcl : w.closed = false
    · by_cases hroom : w.buf.length < C
      · rw [putByte_room_spec w b hcl (hcb hcl) hroom] at h
        injection h with h
        injection h with h1 h2
        subst h1
        subst h2
        refine ⟨⟨hs, fun _ => hcb hcl, fun _ => ?_, fun _ hni => hfo (hcb hcl) hni⟩, by simp⟩
        simp only [List.length_append, List.length_cons, List.length_nil]
        omega
      · rw [putByte_full_spec w b hcl hs (hcb hcl) hroom] at h
        injection h with h
        injection h with h1 h2
        subst h1
        subst h2
        refine ⟨⟨by simp [hs], fun _ => by simp, fun _ => by simp; omega,
          fun _ hni => by simp⟩, ?_⟩
        intro e he
        rcases List.mem_singleton.mp he with rfl
        exact fun hni => hfo (hcb hcl) hni
    · rw [putByte, if_pos (by simpa using hcl)] at h
      cases h
  | flush =>
    rw [runOp] at h
    by_cases hbk : w.hasBlock = true
    · rw [flushW_spec w hs hbk] at h
      injection h with h
      injection h with h1 h2
      subst h1
      subst h2
      refine ⟨⟨by simp [hs], fun _ => by simp, fun _ => by simp [hC], fun _ _ => by simp⟩, ?_⟩
      intro e he
      rcases List.mem_singleton.mp he with rfl
      exact fun hni => hfo hbk hni
    · rw [flushW] at h
      have : flushBlock w = none := by
        rw [flushBlock]
        rw [if_neg]
        simp only [Bool.and_eq_true]
        intro hcontra
        exact hbk hcontra.2
      rw [this] at h
      cases h
  | close =>
    rw [runOp] at h
    by_cases hcl : w.closed = false
    · by_cases hpend : w.buf = [] ∧ w.nitems = 0
      · rw [closeW_empty_spec w (hcb hcl) hcl hpend.1 hpend.2, if_pos hs] at h
        injection h with h
        injection h with h1 h2
        subst h1
        subst h2
        refine ⟨⟨hs, fun hcontra => by simp at hcontra, fun hbk => hbl hbk,
          fun hbk hni => hfo hbk hni⟩, by simp [eventZeroOk]⟩
      · rw [closeW_seal_spec w hs (hcb hcl) hcl hpend] at h
        injection h with h
        injection h with h1 h2
        subst h1
        subst h2
        refine ⟨⟨hs, fun hcontra => by simp at hcontra, fun hbk => by simp at hbk,
          fun hbk => by simp at hbk⟩, ?_⟩
        intro e he
        rcases List.mem_cons.mp he with rfl | he2
        · exact fun hni => hfo (hcb hcl) hni
        · rcases List.mem_singleton.mp he2 with rfl
          exact trivial
    · rw [closeW_closed_spec w (by simpa using hcl)] at h
      injection h with h
      injection h with h1 h2
      subst h1
      subst h2
      exact ⟨⟨hs, hcb, hbl, hfo⟩, by simp⟩

theorem runOps_inv {C : Nat} (hC : 0 < C) :
    ∀ (ops : List Op) (w w' : Writer C) (evs : List SinkEvent),
      WInv w → runOps w ops = some (w', evs) →
      WInv w' ∧ ∀ e ∈ evs, eventZeroOk e := by
  intro ops
  induction ops with
  | nil =>
    intro w w' evs hw h
    rw [runOps] at h
    injection h with h
    injection h with h1 h2
    subst h1
    subst h2
    exact ⟨hw, by simp⟩
  | cons op rest ih =>
    intro w w' evs hw h
    rw [runOps] at h
    split at h
    · exact Option.noConfusion h
    next w1 evs1 hop =>
      split at h
      · exact Option.noConfusion h
      next w2 evs2 hrest =>
        injection h with h
        injection h with h1 h2
        subst h1
        subst h2
        obtain ⟨hw1, hev1⟩ := runOp_inv hC w op w1 evs1 hw hop
        obtain ⟨hw2, hev2⟩ := ih w1 w2 evs2 hw1 hrest
        refine ⟨hw2, ?_⟩
        intro e he
        rcases List.mem_append.mp he with h | h
        · exact hev1 e h
        · exact hev2 e h

/-! ### C5: `firstItemOffset` of an item-less block -/

/-- C5 counterexample: write one 6-byte item at capacity 4 and close.  The
continuation block is sealed with `itemCount = 0` and `firstItemOffset =
0` — the very same field value as the first block, whose first item
genuinely starts at offset 0.  The field alone is therefore not
distinguishable from a genuine offset 0; `AllocateBlock` always resets it
to 0 and no sentinel exists. -/
theorem c5_counterexample_zero_offset :
    writeAndClose 4 [[1, 2, 3, 4, 5, 6]]
      = some ((⟨true, false, [], 0, 0, true⟩ : Writer 4),
          [SinkEvent.appendBlock [1, 2, 3, 4] 0 1,
           SinkEvent.appendBlock [5, 6] 0 0,
           SinkEvent.close]) := by
  decide

/-- C5 amended: in every reachable trace, a sealed block with
`itemCount = 0` carries `firstItemOffset = 0`; readers must distinguish
"no item starts here" via `itemCount == 0`, not via the offset field. -/
theorem c5_zero_items_offset_amended {C : Nat} (hC : 0 < C) (ops : List Op)
    (w' : Writer C) (evs : List SinkEvent)
    (h : runOps (newWriter C true) ops = some (w', evs)) :
    ∀ bs fo ni, SinkEvent.appendBlock bs fo ni ∈ evs → ni = 0 → fo = 0 := by
  have hinv : WInv (newWriter C true) := by
    refine ⟨rfl, fun _ => rfl, fun _ => by simp [newWriter], fun _ _ => rfl⟩
  obtain ⟨-, hev⟩ := runOps_inv hC ops (newWriter C true) w' evs hinv h
  intro bs fo ni hmem hni
  exact hev _ hmem hni

/-- C5 amended witness: one flushed byte gives an item-less block; its
offset field is 0. -/
theorem c5_zero_items_offset_amended_witness :
    (0 : Nat) = 0 ∧ (0 : Nat) = 0 :=
  ⟨c5_zero_items_offset_amended fourPos [Op.putByte 7, Op.flush]
      (newWriter 4 true) [SinkEvent.appendBlock [7] 0 0] (by decide)
      [7] 0 0 (by decide) rfl, rfl⟩

/-! ### C10: block lifecycle -/

/-- C10 counterexample: an `Append` that exactly fills the block returns
with the cursor at the block limit and no `AppendBlock` call made — the
completely full block is retained unsealed across operations, contrary to
the claim that the block is sealed whenever the cursor reaches the
limit. -/
theorem c10_counterexample_full_block_retained :
    runOps (newWriter 4 true) [Op.append [1, 2, 3, 4]]
      = some ((⟨true, true, [1, 2, 3, 4], 0, 0, false⟩ : Writer 4), []) := by
  decide

/-- C10 amended: every reachable open writer holds exactly one block with
cursor ≤ limit; an append that exactly fills the block leaves it full and
unsealed, and the full block is then sealed and replaced at the start of
the next byte write or item mark (no byte is ever written past the
limit). -/
theorem c10_block_lifecycle_amended {C : Nat} (hC : 0 < C) (ops : List Op)
    (w' : Writer C) (evs : List SinkEvent)
    (h : runOps (newWriter C true) ops = some (w', evs)) :
    (w'.closed = false → w'.hasBlock = true) ∧
    (w'.hasBlock = true → w'.buf.length ≤ C) ∧
    (w'.closed = false → w'.buf.length = C →
      (∀ b, putByte w' b = some (({ allocateBlock w' with buf := [b] } : Writer C),
          [SinkEvent.appendBlock w'.buf w'.firstOffset w'.nitems])) ∧
      markItem w' = some (markCore (allocateBlock w'),
          [SinkEvent.appendBlock w'.buf w'.firstOffset w'.nitems])) := by
  have hinv : WInv (newWriter C true) := by
    refine ⟨rfl, fun _ => rfl, fun _ => by simp [newWriter], fun _ _ => rfl⟩
  obtain ⟨⟨hs, hcb, hbl, -⟩, -⟩ := runOps_inv hC ops (newWriter C true) w' evs hinv h
  refine ⟨hcb, hbl, fun hcl hfull => ⟨fun b => ?_, ?_⟩⟩
  · exact putByte_full_spec w' b hcl hs (hcb hcl) (by omega)
  · exact markItem_full_spec w' hs (hcb hcl) hfull

/-- C10 amended witness, at the exactly-filled capacity-4 writer. -/
theorem c10_block_lifecycle_amended_witness :
    ((⟨true, true, [1, 2, 3, 4], 0, 0, false⟩ : Writer 4).closed = false →
      (⟨true, true, [1, 2, 3, 4], 0, 0, false⟩ : Writer 4).hasBlock = true) ∧
    ((⟨true, true, [1, 2, 3, 4], 0, 0, false⟩ : Writer 4).hasBlock = true →
      (⟨true, true, [1, 2, 3, 4], 0, 0, false⟩ : Writer 4).buf.length ≤ 4) ∧
    ((⟨true, true, [1, 2, 3, 4], 0, 0, false⟩ : Writer 4).closed = false →
      (⟨true, true, [1, 2, 3, 4], 0, 0, false⟩ : Writer 4).buf.length = 4 →
      (∀ b, putByte (⟨true, true, [1, 2, 3, 4], 0, 0, false⟩ : Writer 4) b
          = some (({ allocateBlock (⟨true, true, [1, 2, 3, 4], 0, 0, false⟩ : Writer 4) with
                buf := [b] } : Writer 4),
              [SinkEvent.appendBlock [1, 2, 3, 4] 0 0])) ∧
      markItem (⟨true, true, [1, 2, 3, 4], 0, 0, false⟩ : Writer 4)
        = some (markCore (allocateBlock (⟨true, true, [1, 2, 3, 4], 0, 0, false⟩ : Writer 4)),
            [SinkEvent.appendBlock [1, 2, 3, 4] 0 0])) :=
  c10_block_lifecycle_amended fourPos [Op.append [1, 2, 3, 4]]
    (⟨true, true, [1, 2, 3, 4], 0, 0, false⟩ : Writer 4) [] (by decide)

/-! ### C1: exact reassembly of the byte stream -/

theorem writeItem_spec {C : Nat} (hC : 0 < C) (w : Writer C) (bytes : List Byte)
    (hs : w.hasSink = true) (hb : w.hasBlock = true) (hcl : w.closed = false)
    (hbl : w.buf.length ≤ C) :
    ∃ w' evs, writeItem w bytes = some (w', evs) ∧
      evBytes evs ++ w'.buf = w.buf ++ bytes ∧
      w'.hasSink = true ∧ w'.hasBlock = true ∧ w'.closed = false ∧ w'.buf.length ≤ C := by
  by_cases hfull : w.buf.length = C
  · obtain ⟨w2, evs2, happ, out⟩ :=
      appendW_spec hC (markCore (allocateBlock w)) bytes (by simp [hcl]) (by simp [hs])
        (by simp) (by simp)
    refine ⟨w2, [SinkEvent.appendBlock w.buf w.firstOffset w.nitems] ++ evs2, ?_, ?_,
      out.hsink, out.hblock, ?_, out.hlen⟩
    · rw [writeItem, if_neg (by simp [hcl]), markItem_full_spec w hs hb hfull]
      simp only [happ]
    · have h2 := out.hbytes
      simp only [markCore_buf, allocateBlock_buf, List.nil_append] at h2
      simp [evBytes_append, evBytes, List.append_assoc, h2]
    · rw [out.hclosed]
      simp [hcl]
  · obtain ⟨w2, evs2, happ, out⟩ :=
      appendW_spec hC (markCore w) bytes (by simp [hcl]) (by simp [hs]) (by simp [hb])
        (by simp [hbl])
    refine ⟨w2, [] ++ evs2, ?_, ?_, out.hsink, out.hblock, ?_, out.hlen⟩
    · rw [writeItem, if_neg (by simp [hcl]), markItem_open_spec w hb hfull]
      simp only [happ]
    · have h2 := out.hbytes
      simp only [markCore_buf] at h2
      simp [h2]
    · rw [out.hclosed]
      simp [hcl]

theorem runItems_bytes {C : Nat} (hC : 0 < C) :
    ∀ (items : List (List Byte)) (w : Writer C),
      w.hasSink = true → w.hasBlock = true → w.closed = false → w.buf.length ≤ C →
      ∃ w' evs, runItems w items = some (w', evs) ∧
        evBytes evs ++ w'.buf = w.buf ++ items.flatten ∧
        w'.hasSink = true ∧ w'.hasBlock = true ∧ w'.closed = false ∧ w'.buf.length ≤ C := by
  intro items
  induction items with
  | nil =>
    intro w hs hb hcl hbl
    exact ⟨w, [], rfl, by simp [evBytes], hs, hb, hcl, hbl⟩
  | cons it rest ih =>
    intro w hs hb hcl hbl
    obtain ⟨w1, evs1, hwi, hby1, hs1, hbk1, hcl1, hbl1⟩ := writeItem_spec hC w it hs hb hcl hbl
    obtain ⟨w2, evs2, hri, hby2, hs2, hbk2, hcl2, hbl2⟩ := ih w1 hs1 hbk1 hcl1 hbl1
    refine ⟨w2, evs1 ++ evs2, ?_, ?_, hs2, hbk2, hcl2, hbl2⟩
    · simp only [runItems, hwi, hri]
    · rw [evBytes_append]
      calc evBytes evs1 ++ evBytes evs2 ++ w2.buf
          = evBytes evs1 ++ (evBytes evs2 ++ w2.buf) := by rw [List.append_assoc]
        _ = evBytes evs1 ++ (w1.buf ++ rest.flatten) := by rw [hby2]
        _ = (evBytes evs1 ++ w1.buf) ++ rest.flatten := by rw [List.append_assoc]
        _ = (w.buf ++ it) ++ rest.flatten := by rw [hby1]
        _ = w.buf ++ (it :: rest).flatten := by simp [List.append_assoc]

/-- C1 (confirmed): writing any finite sequence of items (each via
`MarkItem`/`operator()` followed by its serialized bytes through `Append`)
and then closing the writer makes the concatenation of the valid byte
ranges of all blocks handed to the sink, in emission order, exactly the
concatenation of the items' serialized bytes in write order — no byte
missing, none duplicated. -/
theorem c1_stream_reassembly {C : Nat} (hC : 0 < C) (items : List (List Byte)) :
    ∃ w evs, writeAndClose C items = some (w, evs) ∧ evBytes evs = items.flatten := by
  obtain ⟨w', evs, hrun, hby, hs, hb, hcl, hbl⟩ :=
    runItems_bytes hC items (newWriter C true) rfl rfl rfl (by simp [newWriter])
  simp only [newWriter, List.nil_append] at hby
  by_cases hpend : w'.buf = [] ∧ w'.nitems = 0
  · refine ⟨({ w' with closed := true } : Writer C), evs ++ [SinkEvent.close], ?_, ?_⟩
    · rw [writeAndClose, hrun]
      simp [closeW_empty_spec w' hb hcl hpend.1 hpend.2, hs]
    · rw [evBytes_append]
      have h3 := hby
      rw [hpend.1, List.append_nil] at h3
      simp [evBytes, h3]
  · refine ⟨({ w' with closed := true, nitems := 0, hasBlock := false, buf := [] } : Writer C),
      evs ++ [SinkEvent.appendBlock w'.buf w'.firstOffset w'.nitems, SinkEvent.close], ?_, ?_⟩
    · rw [writeAndClose, hrun]
      simp [closeW_seal_spec w' hs hb hcl hpend]
    · rw [evBytes_append]
      simp [evBytes, hby]

/-- C1 witness: two items of sizes 2 and 3 at capacity 4; the sink
receives exactly the five bytes, in order. -/
theorem c1_stream_reassembly_witness :
    ∃ w evs, writeAndClose 4 [[1, 2], [3, 4, 5]] = some (w, evs) ∧
      evBytes evs = ([[1, 2], [3, 4, 5]] : List (List Byte)).flatten :=
  c1_stream_reassembly fourPos [[1, 2], [3, 4, 5]]

/-! ### C3: block count for a single item -/

theorem countAppends_eq_length (evs : List SinkEvent)
    (h : ∀ e ∈ evs, ∃ bs fo ni, e = SinkEvent.appendBlock bs fo ni) :
    countAppends evs = evs.length := by
  induction evs with
  | nil => rfl
  | cons e rest ih =>
    obtain ⟨bs, fo, ni, rfl⟩ := h e (by simp)
    simp only [countAppends, List.length_cons]
    rw [ih (fun e he => h e (by simp [he]))]

/-- Uniqueness of the full-block decomposition `len = C * q + r` with
`1 ≤ r ≤ C`: the number of full blocks plus the final partial one. -/
theorem seal_count_arith (C N k q r : Nat) (hC : 0 < C) (hk : k < C)
    (hlen : N * C + k = C * q + r) (hr1 : 1 ≤ r) (hr2 : r ≤ C)
    (hpos : 1 ≤ N * C + k) :
    q + 1 = N + (if 0 < k then 1 else 0) := by
  rw [Nat.mul_comm N C] at hlen hpos
  by_cases hkpos : 0 < k
  · have hq1 : q < N + 1 := by
      refine Nat.lt_of_mul_lt_mul_left (show C * q < C * (N + 1) from ?_)
      rw [Nat.mul_succ]
      omega
    have hq2 : N < q + 1 := by
      refine Nat.lt_of_mul_lt_mul_left (show C * N < C * (q + 1) from ?_)
      rw [Nat.mul_succ]
      omega
    simp only [if_pos hkpos]
    omega
  · have hk0 : k = 0 := by omega
    subst hk0
    have hq1 : q < N := by
      refine Nat.lt_of_mul_lt_mul_left (show C * q < C * N from ?_)
      omega
    have hq2 : N ≤ q + 1 := by
      refine Nat.le_of_mul_le_mul_left (show C * N ≤ C * (q + 1) from ?_) hC
      rw [Nat.mul_succ]
      omega
    simp only [if_neg hkpos]
    omega

/-- C3 counterexample: a single item of serialized size 0 (that is,
`N = 0`, `k = 0`) still produces one sealed block, not zero: its
`MarkItem` sets `nitems_ = 1`, so `MaybeFlushBlock` inside `Close` seals
the empty-valid-range block. -/
theorem c3_counterexample_empty_item :
    writeAndClose 4 [([] : List Byte)]
      = some ((⟨true, false, [], 0, 0, true⟩ : Writer 4),
          [SinkEvent.appendBlock [] 0 1, SinkEvent.close]) ∧
    countAppends [SinkEvent.appendBlock ([] : List Byte) 0 1, SinkEvent.close] ≠ 0 := by
  refine ⟨?_, ?_⟩
  · decide
  · decide

/-- C3 amended: for a single item of positive serialized size
`N × C + k` (`0 ≤ k < C`), writing it and closing produces exactly
`N + (k > 0 ? 1 : 0)` sealed blocks at the sink, whose concatenated valid
bytes equal the item's serialized bytes.  A size-0 item instead produces
one sealed block with an empty valid range, forced by its item mark. -/
theorem c3_block_count_amended {C N k : Nat} (hC : 0 < C) (hk : k < C)
    (bytes : List Byte) (hlen : bytes.length = N * C + k) (hne : bytes ≠ []) :
    ∃ w evs, writeAndClose C [bytes] = some (w, evs) ∧
      countAppends evs = N + (if 0 < k then 1 else 0) ∧
      evBytes evs = bytes := by
  have hroom : (newWriter C true).buf.length ≠ C := by
    simp [newWriter]
    omega
  have hmi : markItem (newWriter C true) = some (markCore (newWriter C true), []) :=
    markItem_open_spec _ rfl hroom
  obtain ⟨w2, evs2, happ, out⟩ :=
    appendW_spec hC (markCore (newWriter C true)) bytes (by simp [newWriter])
      (by simp [newWriter]) (by simp [newWriter]) (by simp [newWriter])
  have hwi : writeItem (newWriter C true) bytes = some (w2, [] ++ evs2) := by
    rw [writeItem, if_neg (by simp [newWriter]), hmi]
    simp only [happ]
  have hri : runItems (newWriter C true) [bytes] = some (w2, evs2) := by
    simp only [runItems, hwi, List.nil_append, List.append_nil]
  have hbl1 : 1 ≤ bytes.length := List.length_pos.mpr hne
  have hr1 : 1 ≤ w2.buf.length := by
    cases hevs2 : evs2 with
    | nil =>
      have hw2 := out.hnil hevs2
      rw [hw2]
      simp only [markCore_buf, newWriter, List.nil_append]
      exact hbl1
    | cons e rest =>
      obtain ⟨-, -, -, -, h1⟩ := out.hcons e rest hevs2
      exact h1
  have hpend : ¬(w2.buf = [] ∧ w2.nitems = 0) := by
    intro hcontra
    rw [hcontra.1] at hr1
    simp at hr1
  have hcl2 : w2.closed = false := by
    rw [out.hclosed]
    simp [newWriter]
  have hcount : bytes.length = C * evs2.length + w2.buf.length := by
    have h0 := out.hcount
    rw [markCore_buf] at h0
    simpa [newWriter] using h0
  refine ⟨({ w2 with closed := true, nitems := 0, hasBlock := false, buf := [] } : Writer C),
    evs2 ++ [SinkEvent.appendBlock w2.buf w2.firstOffset w2.nitems, SinkEvent.close],
    ?_, ?_, ?_⟩
  · rw [writeAndClose, hri]
    simp [closeW_seal_spec w2 out.hsink out.hblock hcl2 hpend]
  · rw [countAppends_append]
    have hlen2 : countAppends evs2 = evs2.length :=
      countAppends_eq_length evs2 (fun e he => by
        obtain ⟨bs, fo, ni, heq, -⟩ := out.hfull e he
        exact ⟨bs, fo, ni, heq⟩)
    rw [hlen2]
    have harith := seal_count_arith C N k evs2.length w2.buf.length hC hk
      (by omega) hr1 out.hlen (by omega)
    simp only [countAppends]
    omega
  · rw [evBytes_append]
    have h2 := out.hbytes
    simp only [markCore_buf] at h2
    simp only [evBytes, List.append_nil]
    rw [h2]
    simp [newWriter]

/-- C3 amended witness: a 10-byte item at capacity 4 (`N = 2`, `k = 2`)
yields 3 sealed blocks carrying exactly the 10 bytes. -/
theorem c3_block_count_amended_witness :
    (0 : Nat) < 4 ∧ (2 : Nat) < 4 ∧
    ∃ w evs, writeAndClose 4 [[1, 2, 3, 4, 5, 6, 7, 8, 9, 10]] = some (w, evs) ∧
      countAppends evs = 2 + (if 0 < 2 then 1 else 0) ∧
      evBytes evs = [1, 2, 3, 4, 5, 6, 7, 8, 9, 10] :=
  ⟨by decide, by decide,
    c3_block_count_amended fourPos (by decide) [1, 2, 3, 4, 5, 6, 7, 8, 9, 10]
      (by decide) (by decide)⟩

/-! ### C2: per-block item metadata -/

theorem filter_all_true (l : List Nat) (pred : Nat → Bool) (h : ∀ p ∈ l, pred p = true) :
    l.filter pred = l :=
  List.filter_eq_self.mpr h

theorem filter_all_false (l : List Nat) (pred : Nat → Bool) (h : ∀ p ∈ l, pred p = false) :
    l.filter pred = [] := by
  induction l with
  | nil => rfl
  | cons a rest ih =>
    rw [List.filter_cons_of_neg (by simp [h a (by simp)])]
    exact ih (fun p hp => h p (by simp [hp]))

theorem itemStarts_ge (items : List (List Byte)) :
    ∀ (n p : Nat), p ∈ itemStarts items n → n ≤ p := by
  induction items with
  | nil => intro n p h; cases h
  | cons it rest ih =>
    intro n p h
    rcases List.mem_cons.mp h with rfl | h2
    · exact Nat.le_refl _
    · exact Nat.le_trans (Nat.le_add_right n it.length) (ih _ p h2)

theorem eventsMetaOk_append (S : List Nat) :
    ∀ (e1 : List SinkEvent) (off : Nat) (e2 : List SinkEvent),
      eventsMetaOk S off (e1 ++ e2)
        = (eventsMetaOk S off e1 && eventsMetaOk S (off + (evBytes e1).length) e2) := by
  intro e1
  induction e1 with
  | nil => intro off e2; simp [eventsMetaOk, evBytes]
  | cons e rest ih =>
    intro off e2
    cases e with
    | appendBlock bs fo ni =>
      simp [eventsMetaOk, evBytes, ih, Bool.and_assoc, Nat.add_assoc, List.length_append]
    | close => simp [eventsMetaOk, evBytes, ih]

theorem eventsMetaOk_drop_low (low hi : List Nat) :
    ∀ (evs : List SinkEvent) (off : Nat), (∀ p ∈ low, p < off) →
      eventsMetaOk (low ++ hi) off evs = eventsMetaOk hi off evs := by
  intro evs
  induction evs with
  | nil => intro off h; rfl
  | cons e rest ih =>
    intro off h
    cases e with
    | close => simp only [eventsMetaOk]; exact ih off h
    | appendBlock bs fo ni =>
      have hfil : (low ++ hi).filter (fun p => decide (off ≤ p ∧ p < off + bs.length))
          = hi.filter (fun p => decide (off ≤ p ∧ p < off + bs.length)) := by
        rw [List.filter_append,
          filter_all_false low _ (fun p hp => by
            have := h p hp
            simp
            omega),
          List.nil_append]
      simp only [eventsMetaOk, blockMetaOk, hfil]
      rw [ih (off + bs.length) (fun p hp => Nat.lt_of_lt_of_le (h p hp) (Nat.le_add_right _ _))]

theorem eventsMetaOk_zeros {C : Nat} (S : List Nat) :
    ∀ (evs : List SinkEvent) (off : Nat),
      (∀ e ∈ evs, ∃ bs, e = SinkEvent.appendBlock bs 0 0 ∧ bs.length = C) →
      (∀ p ∈ S, p < off ∨ off + C * evs.length ≤ p) →
      eventsMetaOk S off evs = true := by
  intro evs
  induction evs with
  | nil => intro off hz hout; rfl
  | cons e rest ih =>
    intro off hz hout
    obtain ⟨bs, rfl, hlen⟩ := hz e (by simp)
    have hfil : S.filter (fun p => decide (off ≤ p ∧ p < off + bs.length)) = [] := by
      refine filter_all_false S _ (fun p hp => ?_)
      rcases hout p hp with h | h
      · simp
        omega
      · rw [List.length_cons, Nat.mul_succ] at h
        rw [hlen]
        simp
        omega
    simp only [eventsMetaOk, blockMetaOk, hfil]
    rw [ih (off + bs.length) (fun e he => hz e (by simp [he])) (fun p hp => ?_)]
    · simp
    · rcases hout p hp with h | h
      · left
        omega
      · right
        rw [List.length_cons, Nat.mul_succ] at h
        rw [hlen]
        omega

theorem blockMetaOk_of (S : List Nat) (off : Nat) (bs : List Byte) (fo ni : Nat)
    (marks : List Nat)
    (hfil : S.filter (fun p => decide (off ≤ p ∧ p < off + bs.length)) = marks)
    (hni : ni = marks.length)
    (hhead : marks ≠ [] → marks.head? = some (off + fo))
    (hsorted : marks.Pairwise (· ≤ ·)) :
    blockMetaOk S off bs fo ni = true := by
  rw [blockMetaOk]
  simp only [hfil]
  cases marks with
  | nil => simp [hni]
  | cons m rest =>
    have hm : m = off + fo := by
      have h2 := hhead (by simp)
      simpa using h2
    subst hm
    rw [List.pairwise_cons] at hsorted
    have hall : ∀ q ∈ (off + fo) :: rest, off + fo ≤ q := by
      intro q hq
      rcases List.mem_cons.mp hq with rfl | hq2
      · exact Nat.le_refl _
      · exact hsorted.1 q hq2
    simp [hni, hall]
    exact hsorted.1

/-- Invariant between items: `marks` is the list of global positions of
the item marks recorded in the writer's current block, whose first byte
sits at global offset `off`. -/
def BlockCtx {C : Nat} (w : Writer C) (off : Nat) (marks : List Nat) : Prop :=
  w.hasSink = true ∧ w.hasBlock = true ∧ w.closed = false ∧
  w.buf.length ≤ C ∧
  w.nitems = marks.length ∧
  (∀ p ∈ marks, off ≤ p ∧ p < off + w.buf.length) ∧
  (marks ≠ [] → marks.head? = some (off + w.firstOffset)) ∧
  marks.Pairwise (· ≤ ·)

/-- One item written into a block context: the sealed blocks carry the
correct item metadata with respect to the marks of the current block, the
new item's mark, and any future item starts, and a block context for the
remaining items results. -/
theorem writeItem_ctx {C : Nat} (hC : 0 < C) (w : Writer C) (off : Nat) (marks : List Nat)
    (it : List Byte) (hit : it ≠ []) (hctx : BlockCtx w off marks) :
    ∃ w2 evs, writeItem w it = some (w2, evs) ∧
      (∀ e ∈ evs, ∃ bs fo ni, e = SinkEvent.appendBlock bs fo ni ∧ bs.length = C) ∧
      evBytes evs ++ w2.buf = w.buf ++ it ∧
      (∀ (future : List Nat), (∀ p ∈ future, off + w.buf.length + it.length ≤ p) →
        eventsMetaOk (marks ++ (off + w.buf.length) :: future) off evs = true) ∧
      ∃ low marks2,
        marks ++ [off + w.buf.length] = low ++ marks2 ∧
        (∀ p ∈ low, p < off + C * evs.length) ∧
        BlockCtx w2 (off + C * evs.length) marks2 := by
  obtain ⟨hs, hb, hcl, hbl, hni, hbounds, hhead, hsorted⟩ := hctx
  have hit1 : 1 ≤ it.length := List.length_pos.mpr hit
  by_cases hfull : w.buf.length = C
  · -- the block is exactly full: MarkItem seals it first
    have hmi := markItem_full_spec w hs hb hfull
    obtain ⟨w2, evs2, happ, out⟩ :=
      appendW_spec hC (markCore (allocateBlock w)) it (by simp [hcl]) (by simp [hs])
        (by simp) (by simp)
    have hw1fo : (markCore (allocateBlock w)).firstOffset = 0 := by
      rw [markCore_firstOffset]
      simp
    have hw1ni : (markCore (allocateBlock w)).nitems = 1 := by simp
    have hwi : writeItem w it
        = some (w2, SinkEvent.appendBlock w.buf w.firstOffset w.nitems :: evs2) := by
      rw [writeItem, if_neg (by simp [hcl]), hmi]
      simp only [happ]
      rfl
    have hcount : it.length = C * evs2.length + w2.buf.length := by
      have h0 := out.hcount
      simpa using h0
    refine ⟨w2, SinkEvent.appendBlock w.buf w.firstOffset w.nitems :: evs2, hwi, ?_, ?_, ?_, ?_⟩
    · intro e he
      rcases List.mem_cons.mp he with rfl | hmem
      · exact ⟨_, _, _, rfl, hfull⟩
      · exact out.hfull e hmem
    · have h2 := out.hbytes
      simp only [markCore_buf, allocateBlock_buf, List.nil_append] at h2
      simp [evBytes, h2]
    · intro future hfut
      have hfil0 : (marks ++ (off + w.buf.length) :: future).filter
          (fun p => decide (off ≤ p ∧ p < off + w.buf.length)) = marks := by
        rw [List.filter_append,
          filter_all_true marks _ (fun p hp => by
            have := hbounds p hp
            simp
            omega),
          List.filter_cons_of_neg (by simp),
          filter_all_false future _ (fun p hp => by
            have := hfut p hp
            simp
            omega),
          List.append_nil]
      simp only [eventsMetaOk]
      rw [blockMetaOk_of _ _ _ _ _ marks hfil0 hni hhead hsorted, Bool.true_and]
      cases hevs2 : evs2 with
      | nil => rfl
      | cons e2 rest2 =>
        obtain ⟨he2, hrest2, hni2, hfo2, hbuf2⟩ := out.hcons e2 rest2 hevs2
        simp only [markCore_buf, allocateBlock_buf, markCore_nitems, allocateBlock_nitems,
          List.nil_append, List.length_nil, Nat.sub_zero, Nat.zero_add, hw1fo] at he2
        obtain ⟨bsf, fof, nif, hbsf, hbsflen⟩ :=
          out.hfull e2 (by rw [hevs2]; exact List.mem_cons_self _ _)
        rw [he2] at hbsf
        injection hbsf with hbf1 hbf2 hbf3
        have hlen2 : (List.take C it).length = C := by rw [hbf1]; exact hbsflen
        have hq1 : C < it.length := by
          have := out.hcount
          rw [hevs2] at this
          simp only [markCore_buf, allocateBlock_buf, List.length_nil, List.length_cons,
            Nat.mul_succ] at this
          omega
        have hzeros : ∀ e ∈ rest2, ∃ bs, e = SinkEvent.appendBlock bs 0 0 ∧ bs.length = C := by
          intro e he
          obtain ⟨bs, hbs⟩ := hrest2 e he
          obtain ⟨bs', fo', ni', hbs', hlen'⟩ :=
            out.hfull e (by rw [hevs2]; exact List.mem_cons_of_mem _ he)
          rw [hbs] at hbs'
          injection hbs' with g1 g2 g3
          refine ⟨bs, hbs, ?_⟩
          rw [g1]
          exact hlen'
        rw [he2]
        simp only [eventsMetaOk, hlen2]
        have hfil1 : (marks ++ (off + w.buf.length) :: future).filter
            (fun p => decide (off + w.buf.length ≤ p
              ∧ p < off + w.buf.length + (List.take C it).length))
            = [off + w.buf.length] := by
          rw [hlen2]
          rw [List.filter_append,
            filter_all_false marks _ (fun p hp => by
              have := hbounds p hp
              simp
              omega),
            List.filter_cons_of_pos (by simp; omega),
            filter_all_false future _ (fun p hp => by
              have := hfut p hp
              simp
              omega),
            List.nil_append]
        rw [blockMetaOk_of _ _ _ _ _ [off + w.buf.length] hfil1 (by simp)
          (by intro h2x; simp) (by simp), Bool.true_and]
        refine eventsMetaOk_zeros _ rest2 _ hzeros ?_
        intro p hp
        rcases List.mem_append.mp hp with hpm | hpc
        · left
          have := hbounds p hpm
          omega
        · rcases List.mem_cons.mp hpc with rfl | hpf
          · left
            omega
          · right
            have := hfut p hpf
            have h3 := hcount
            rw [hevs2, List.length_cons, Nat.mul_succ] at h3
            omega
    · cases hevs2 : evs2 with
      | nil =>
        refine ⟨marks, [off + w.buf.length], rfl, ?_, ?_⟩
        · intro p hp
          have := hbounds p hp
          simp only [hevs2, List.length_cons, List.length_nil]
          omega
        · have hw2 := out.hnil hevs2
          have hoff : off
              + C * ([SinkEvent.appendBlock w.buf w.firstOffset w.nitems] : List SinkEvent).length
              = off + w.buf.length := by
            simp [hfull]
          rw [hoff]
          refine ⟨by rw [hw2]; simp [hs], by rw [hw2]; simp, by rw [hw2]; simp [hcl], ?_,
            ?_, ?_, ?_, ?_⟩
          · rw [hw2]
            have := out.hlen
            rw [hw2] at this
            exact this
          · rw [hw2]
            simp [hw1ni]
          · intro p hp
            rcases List.mem_singleton.mp hp with rfl
            constructor
            · exact Nat.le_refl _
            · rw [hw2]
              simp only [markCore_buf, allocateBlock_buf, List.nil_append]
              simp
              omega
          · intro h2x
            rw [hw2]
            simp only [markCore_buf, allocateBlock_buf]
            simp [hw1fo]
          · simp
      | cons e2 rest2 =>
        obtain ⟨he2, hrest2, hni2, hfo2, hbuf2⟩ := out.hcons e2 rest2 hevs2
        refine ⟨marks ++ [off + w.buf.length], [], by simp, ?_, ?_⟩
        · intro p hp
          have hms : C * (rest2.length + 1 + 1) = C * rest2.length + C + C := by
            rw [Nat.mul_succ, Nat.mul_succ]
          simp only [List.length_cons]
          rcases List.mem_append.mp hp with hpm | hpn
          · have := hbounds p hpm
            omega
          · rcases List.mem_singleton.mp hpn with rfl
            omega
        · exact ⟨out.hsink, out.hblock, by rw [out.hclosed]; simp [hcl], out.hlen,
            by simp [hni2], by simp, by simp, by simp⟩
  · -- room in the block: MarkItem records the mark in place
    have hmi := markItem_open_spec w hb hfull
    obtain ⟨w2, evs2, happ, out⟩ :=
      appendW_spec hC (markCore w) it (by simp [hcl]) (by simp [hs]) (by simp [hb])
        (by simp [hbl])
    have hw1fo : (markCore w).firstOffset
        = (if w.nitems = 0 then w.buf.length else w.firstOffset) := markCore_firstOffset w
    have hwi : writeItem w it = some (w2, evs2) := by
      rw [writeItem, if_neg (by simp [hcl]), hmi]
      simp only [happ]
      simp
    have hcount : w.buf.length + it.length = C * evs2.length + w2.buf.length := by
      have h0 := out.hcount
      simpa using h0
    have hhead1 : (marks ++ [off + w.buf.length]).head?
        = some (off + (markCore w).firstOffset) := by
      cases hmk : marks with
      | nil =>
        rw [hw1fo]
        have hniz : w.nitems = 0 := by rw [hni, hmk]; rfl
        simp [hniz]
      | cons m rest =>
        have h2 := hhead (by rw [hmk]; simp)
        rw [hmk] at h2
        rw [hw1fo]
        have hniz : ¬ w.nitems = 0 := by
          rw [hni, hmk]
          simp
        simp only [if_neg hniz]
        simpa using h2
    have hsorted1 : (marks ++ [off + w.buf.length]).Pairwise (· ≤ ·) := by
      rw [List.pairwise_append]
      refine ⟨hsorted, by simp, ?_⟩
      intro a ha b hb2
      rcases List.mem_singleton.mp hb2 with rfl
      have := hbounds a ha
      omega
    refine ⟨w2, evs2, hwi, out.hfull, ?_, ?_, ?_⟩
    · have h2 := out.hbytes
      simpa using h2
    · intro future hfut
      cases hevs2 : evs2 with
      | nil => rfl
      | cons e2 rest2 =>
        obtain ⟨he2, hrest2, hni2, hfo2, hbuf2⟩ := out.hcons e2 rest2 hevs2
        simp only [markCore_buf, markCore_nitems] at he2
        obtain ⟨bsf, fof, nif, hbsf, hbsflen⟩ :=
          out.hfull e2 (by rw [hevs2]; exact List.mem_cons_self _ _)
        rw [he2] at hbsf
        injection hbsf with hbf1 hbf2 hbf3
        have hlen2 : (w.buf ++ List.take (C - w.buf.length) it).length = C := by
          rw [hbf1]
          exact hbsflen
        have hq1 : C < w.buf.length + it.length := by
          have := hcount
          rw [hevs2] at this
          simp only [List.length_cons, Nat.mul_succ] at this
          omega
        have hzeros : ∀ e ∈ rest2, ∃ bs, e = SinkEvent.appendBlock bs 0 0 ∧ bs.length = C := by
          intro e he
          obtain ⟨bs, hbs⟩ := hrest2 e he
          obtain ⟨bs', fo', ni', hbs', hlen'⟩ :=
            out.hfull e (by rw [hevs2]; exact List.mem_cons_of_mem _ he)
          rw [hbs] at hbs'
          injection hbs' with g1 g2 g3
          refine ⟨bs, hbs, ?_⟩
          rw [g1]
          exact hlen'
        rw [he2]
        simp only [eventsMetaOk, hlen2]
        have hfil1 : (marks ++ (off + w.buf.length) :: future).filter
            (fun p => decide (off ≤ p
              ∧ p < off + (w.buf ++ List.take (C - w.buf.length) it).length))
            = marks ++ [off + w.buf.length] := by
          rw [hlen2]
          rw [List.filter_append,
            filter_all_true marks _ (fun p hp => by
              have := hbounds p hp
              simp
              omega),
            List.filter_cons_of_pos (by simp; omega),
            filter_all_false future _ (fun p hp => by
              have h3 := hfut p hp
              simp
              omega)]
        rw [blockMetaOk_of _ _ _ _ _ (marks ++ [off + w.buf.length]) hfil1
          (by simp [← hni]) (fun _ => hhead1) hsorted1, Bool.true_and]
        refine eventsMetaOk_zeros _ rest2 _ hzeros ?_
        intro p hp
        rcases List.mem_append.mp hp with hpm | hpc
        · left
          have := hbounds p hpm
          omega
        · rcases List.mem_cons.mp hpc with rfl | hpf
          · left
            omega
          · right
            have := hfut p hpf
            have h3 := hcount
            rw [hevs2, List.length_cons, Nat.mul_succ] at h3
            omega
    · cases hevs2 : evs2 with
      | nil =>
        refine ⟨[], marks ++ [off + w.buf.length], by simp, by simp, ?_⟩
        have hw2 := out.hnil hevs2
        have hoff : off + C * ([] : List SinkEvent).length = off := by simp
        rw [hoff]
        refine ⟨by rw [hw2]; simp [hs], by rw [hw2]; simp [hb], by rw [hw2]; simp [hcl],
          by rw [hw2]; have := out.hlen; rw [hw2] at this; exact this, ?_, ?_, ?_, hsorted1⟩
        · rw [hw2]
          simp [hni]
        · intro p hp
          rw [hw2]
          simp only [markCore_buf, List.length_append]
          rcases List.mem_append.mp hp with hpm | hpn
          · have := hbounds p hpm
            constructor
            · omega
            · omega
          · rcases List.mem_singleton.mp hpn with rfl
            constructor
            · omega
            · omega
        · intro h2x
          rw [hw2]
          simp only [markCore_buf]
          exact hhead1
      | cons e2 rest2 =>
        obtain ⟨he2, hrest2, hni2, hfo2, hbuf2⟩ := out.hcons e2 rest2 hevs2
        refine ⟨marks ++ [off + w.buf.length], [], by simp, ?_, ?_⟩
        · intro p hp
          have hms : C * (rest2.length + 1) = C * rest2.length + C := by
            rw [Nat.mul_succ]
          simp only [List.length_cons]
          rcases List.mem_append.mp hp with hpm | hpn
          · have := hbounds p hpm
            omega
          · rcases List.mem_singleton.mp hpn with rfl
            have hblt : w.buf.length < C := by omega
            omega
        · exact ⟨out.hsink, out.hblock, by rw [out.hclosed]; simp [hcl], out.hlen,
            by simp [hni2], by simp, by simp, by simp⟩

theorem runItems_ctx {C : Nat} (hC : 0 < C) :
    ∀ (items : List (List Byte)), (∀ it2 ∈ items, it2 ≠ []) →
    ∀ (w : Writer C) (off : Nat) (marks : List Nat), BlockCtx w off marks →
    ∃ w' evs,
      runItems w items = some (w', evs) ∧
      (∀ e ∈ evs, ∃ bs fo ni, e = SinkEvent.appendBlock bs fo ni ∧ bs.length = C) ∧
      evBytes evs ++ w'.buf = w.buf ++ items.flatten ∧
      eventsMetaOk (marks ++ itemStarts items (off + w.buf.length)) off evs = true ∧
      ∃ low marks2,
        marks ++ itemStarts items (off + w.buf.length) = low ++ marks2 ∧
        (∀ p ∈ low, p < off + C * evs.length) ∧
        BlockCtx w' (off + C * evs.length) marks2 := by
  intro items
  induction items with
  | nil =>
    intro hne w off marks hctx
    refine ⟨w, [], rfl, by simp, by simp [evBytes], rfl, [], marks,
      by simp [itemStarts], by simp, ?_⟩
    simpa using hctx
  | cons it rest ih =>
    intro hne w off marks hctx
    have hit : it ≠ [] := hne it (by simp)
    obtain ⟨w1, evs1, hwi, hfull1, hbytes1, hmeta1, low1, marks1, hsplit1, hlow1, hctx1⟩ :=
      writeItem_ctx hC w off marks it hit hctx
    obtain ⟨w2, evs2, hri, hfull2, hbytes2, hmeta2, low2, marks2, hsplit2, hlow2, hctx2⟩ :=
      ih (fun it2 h2 => hne it2 (by simp [h2])) w1 (off + C * evs1.length) marks1 hctx1
    have hlen1 : (evBytes evs1).length = C * evs1.length := evBytes_length_of_full evs1 hfull1
    have hpos : off + C * evs1.length + w1.buf.length = off + w.buf.length + it.length := by
      have h2 := congrArg List.length hbytes1
      simp only [List.length_append, hlen1] at h2
      omega
    rw [hpos] at hmeta2 hsplit2
    refine ⟨w2, evs1 ++ evs2, ?_, ?_, ?_, ?_, ?_⟩
    · simp only [runItems, hwi, hri]
    · intro e he
      rcases List.mem_append.mp he with h | h
      · exact hfull1 e h
      · exact hfull2 e h
    · rw [evBytes_append]
      calc evBytes evs1 ++ evBytes evs2 ++ w2.buf
          = evBytes evs1 ++ (evBytes evs2 ++ w2.buf) := by rw [List.append_assoc]
        _ = evBytes evs1 ++ (w1.buf ++ rest.flatten) := by rw [hbytes2]
        _ = (evBytes evs1 ++ w1.buf) ++ rest.flatten := by rw [List.append_assoc]
        _ = (w.buf ++ it) ++ rest.flatten := by rw [hbytes1]
        _ = w.buf ++ (it :: rest).flatten := by simp
    · rw [eventsMetaOk_append, hlen1]
      have hfut : ∀ p ∈ itemStarts rest (off + w.buf.length + it.length),
          off + w.buf.length + it.length ≤ p := fun p hp => itemStarts_ge rest _ p hp
      simp only [itemStarts]
      rw [hmeta1 (itemStarts rest (off + w.buf.length + it.length)) hfut, Bool.true_and]
      have hS : marks ++ (off + w.buf.length)
            :: itemStarts rest (off + w.buf.length + it.length)
          = low1 ++ (marks1 ++ itemStarts rest (off + w.buf.length + it.length)) := by
        rw [← List.append_assoc, ← hsplit1]
        simp
      rw [hS, eventsMetaOk_drop_low low1 _ evs2 _ hlow1]
      exact hmeta2
    · refine ⟨low1 ++ low2, marks2, ?_, ?_, ?_⟩
      · simp only [itemStarts]
        calc marks ++ (off + w.buf.length)
              :: itemStarts rest (off + w.buf.length + it.length)
            = (marks ++ [off + w.buf.length])
              ++ itemStarts rest (off + w.buf.length + it.length) := by simp
          _ = (low1 ++ marks1)
              ++ itemStarts rest (off + w.buf.length + it.length) := by rw [hsplit1]
          _ = low1 ++ (marks1 ++ itemStarts rest (off + w.buf.length + it.length)) := by
              rw [List.append_assoc]
          _ = low1 ++ (low2 ++ marks2) := by rw [hsplit2]
          _ = (low1 ++ low2) ++ marks2 := by rw [List.append_assoc]
      · intro p hp
        have hmul : C * (evs1 ++ evs2).length = C * evs1.length + C * evs2.length := by
          rw [List.length_append, Nat.mul_add]
        rcases List.mem_append.mp hp with h | h
        · have := hlow1 p h
          omega
        · have := hlow2 p h
          omega
      · have heq : off + C * (evs1 ++ evs2).length
            = off + C * evs1.length + C * evs2.length := by
          rw [List.length_append, Nat.mul_add]
          omega
        rw [heq]
        exact hctx2

/-- C2 counterexample: a single item of serialized size 0 at capacity 4.
`MarkItem` increments `nitems_` whether or not a byte of the item
follows, so `Close` seals a block with `itemCount = 1` and an empty
valid range — yet no item's first byte lies in that (empty) range, so
the claimed equality `itemCount = #{marks whose first byte fell in the
valid range}` fails for that block. -/
theorem c2_counterexample_empty_item_mark :
    writeAndClose 4 [([] : List Byte)]
      = some ((⟨true, false, [], 0, 0, true⟩ : Writer 4),
          [SinkEvent.appendBlock [] 0 1, SinkEvent.close]) ∧
    eventsMetaOk (itemStarts [([] : List Byte)] 0) 0
      [SinkEvent.appendBlock [] 0 1, SinkEvent.close] = false := by
  refine ⟨by decide, by decide⟩

/-- C2 amended: write any sequence of items with nonempty
serializations and close.  Every sealed block's `itemCount` equals the
number of item marks whose item's first byte fell within that block's
valid range (an item merely continuing from a previous block counts for
nothing), and when `itemCount > 0` the block's `firstItemOffset` is the
offset, inside the valid range, of the earliest such item-start byte.
A size-0 item breaks this accounting (see the counterexample above):
its mark is counted in `itemCount` although it contributes no byte to
any block's valid range. -/
theorem c2_item_metadata_amended {C : Nat} (hC : 0 < C) (items : List (List Byte))
    (hne : ∀ it ∈ items, it ≠ []) :
    ∃ w evs, writeAndClose C items = some (w, evs) ∧
      eventsMetaOk (itemStarts items 0) 0 evs = true := by
  have hctx0 : BlockCtx (newWriter C true) 0 ([] : List Nat) := by
    exact ⟨rfl, rfl, rfl, by simp [newWriter], rfl, by simp, by simp, by simp⟩
  obtain ⟨w', evs, hri, hfull, hbytes, hmeta, low, marks2, hsplit, hlow, hctx'⟩ :=
    runItems_ctx hC items hne (newWriter C true) 0 [] hctx0
  simp only [newWriter, List.length_nil, Nat.add_zero, Nat.zero_add, List.nil_append]
    at hmeta hsplit hlow hctx'
  obtain ⟨hs', hb', hcl', hbl', hni', hbounds', hhead', hsorted'⟩ := hctx'
  have hlenE : (evBytes evs).length = C * evs.length := evBytes_length_of_full evs hfull
  by_cases hpend : w'.buf = [] ∧ w'.nitems = 0
  · refine ⟨({ w' with closed := true } : Writer C), evs ++ [SinkEvent.close], ?_, ?_⟩
    · rw [writeAndClose, hri]
      simp [closeW_empty_spec w' hb' hcl' hpend.1 hpend.2, hs']
    · rw [eventsMetaOk_append, hmeta, Bool.true_and]
      rfl
  · refine ⟨({ w' with closed := true, nitems := 0, hasBlock := false, buf := [] } : Writer C),
      evs ++ [SinkEvent.appendBlock w'.buf w'.firstOffset w'.nitems, SinkEvent.close], ?_, ?_⟩
    · rw [writeAndClose, hri]
      simp [closeW_seal_spec w' hs' hb' hcl' hpend]
    · rw [eventsMetaOk_append, hmeta, Bool.true_and, hlenE]
      simp only [eventsMetaOk, Nat.zero_add]
      have hfil : (itemStarts items 0).filter
          (fun p => decide (C * evs.length ≤ p ∧ p < C * evs.length + w'.buf.length))
          = marks2 := by
        rw [hsplit, List.filter_append,
          filter_all_false low _ (fun p hp => by
            have := hlow p hp
            simp
            omega),
          List.nil_append,
          filter_all_true marks2 _ (fun p hp => by
            have := hbounds' p hp
            simp
            omega)]
      rw [blockMetaOk_of _ _ _ _ _ marks2 hfil hni' hhead' hsorted', Bool.true_and]

/-- C2 amended witness: the spec's own scenario — capacity 16, items of
sizes 5, 5 and 10.  Block 0 is sealed with `validLength = 16`,
`firstItemOffset = 0`, `itemCount = 3`; block 1 carries the 4 remaining
bytes of item 3 with `itemCount = 0`. -/
theorem c2_item_metadata_amended_witness :
    ∃ w evs, writeAndClose 16
        [[1, 2, 3, 4, 5], [6, 7, 8, 9, 10], [11, 12, 13, 14, 15, 16, 17, 18, 19, 20]]
        = some (w, evs) ∧
      eventsMetaOk (itemStarts
        [[1, 2, 3, 4, 5], [6, 7, 8, 9, 10], [11, 12, 13, 14, 15, 16, 17, 18, 19, 20]] 0)
        0 evs = true :=
  c2_item_metadata_amended sixteenPos
    [[1, 2, 3, 4, 5], [6, 7, 8, 9, 10], [11, 12, 13, 14, 15, 16, 17, 18, 19, 20]]
    (by decide)

end BlockWriterModel
